import Mathlib

/-!
Shallow embedding of the Submission Ranking & Leaderboard subsystem of
`src/database.py`.

The `submissions` table (see `init_db`) has columns
`id UUID PRIMARY KEY, user_id, problem_id, score INTEGER, replay_result,
timestamp TIMESTAMP, error_details TEXT` with `UNIQUE (user_id, problem_id)`.
A table state is modelled as a `List ScoreRecord`; an `INSERT` appends a row.
Timestamps are modelled as integers (only their ordering matters); the JSON
serialisation `json.dumps(...)` of `error_details` is modelled as the stored
string itself.  The `psycopg2` exception path of `save_submission` (storage
failure) is outside the pure model: the model covers the normal path, in
which `save_submission` returns `{"success": True}`.
-/

structure ScoreRecord where
  id : String
  user_id : String
  problem_id : String
  score : Int
  replay_result : String
  timestamp : Int
  error_details : String
deriving DecidableEq, Repr

/-- The conflict key of the `UNIQUE (user_id, problem_id)` constraint. -/
def recKey (r : ScoreRecord) : String × String := (r.user_id, r.problem_id)

/-- The `WHERE` predicate of the `ON CONFLICT ... DO UPDATE` clause in
`save_submission`:
`EXCLUDED.score > submissions.score OR (EXCLUDED.score = submissions.score
AND EXCLUDED.timestamp < submissions.timestamp)`. -/
def excludedBeats (c stored : ScoreRecord) : Bool :=
  decide (stored.score < c.score) ||
    (decide (c.score = stored.score) && decide (c.timestamp < stored.timestamp))

/-- The `DO UPDATE SET` assignment: `score`, `replay_result`, `timestamp` and
`error_details` are taken from the candidate (`EXCLUDED`); the row's `id`,
`user_id` and `problem_id` are untouched. -/
def overwriteWith (stored c : ScoreRecord) : ScoreRecord :=
  { stored with
    score := c.score
    replay_result := c.replay_result
    timestamp := c.timestamp
    error_details := c.error_details }

/-- Effect of `save_submission`'s upsert statement on the table rows:
insert when no row has the candidate's `(user_id, problem_id)`; otherwise
update the conflicting row exactly when `excludedBeats` holds. -/
def upsertRows : List ScoreRecord → ScoreRecord → List ScoreRecord
  | [], c => [c]
  | r :: rest, c =>
      if recKey r = recKey c then
        (if excludedBeats c r then overwriteWith r c else r) :: rest
      else
        r :: upsertRows rest c

/-- The dictionary returned by `save_submission`: `{"success": True}` on the
normal path, `{"success": False, "error": ...}` only from the exception
handler. -/
structure SaveResult where
  success : Bool
  error : Option String
deriving DecidableEq, Repr

/-- The function `save_submission`: runs the upsert and returns
`{"success": True}` (the exception path is outside the pure model). -/
def save_submission (rows : List ScoreRecord) (c : ScoreRecord) :
    SaveResult × List ScoreRecord :=
  ({ success := true, error := none }, upsertRows rows c)

/-- Row with a given `(user_id, problem_id)` key, if any.  Under the table's
`UNIQUE` constraint there is at most one. -/
def lookupRec (rows : List ScoreRecord) (k : String × String) :
    Option ScoreRecord :=
  rows.find? (fun r => decide (recKey r = k))

/-- A sequence of `save_submission` calls applied in list order. -/
def applyAll (rows : List ScoreRecord) (cs : List ScoreRecord) :
    List ScoreRecord :=
  cs.foldl upsertRows rows

/-- Whether the upsert statement writes a row for this candidate: the
`INSERT` fires when there is no conflicting row, and the `DO UPDATE` fires
exactly when its `WHERE` predicate holds.  When this is `false` the statement
touches no row (the candidate is rejected). -/
def updateFires (rows : List ScoreRecord) (c : ScoreRecord) : Bool :=
  match lookupRec rows (recKey c) with
  | none => true
  | some r => excludedBeats c r

/-- The table's `UNIQUE (user_id, problem_id)` constraint as a predicate on
the modelled rows. -/
def keyUnique (rows : List ScoreRecord) : Prop :=
  (rows.map recKey).Nodup

instance (rows : List ScoreRecord) : Decidable (keyUnique rows) := by
  unfold keyUnique; exact List.nodupDecidable _

/-! Leaderboard: `get_leaderboard_data` runs

```
SELECT id, user_id, problem_id, score, replay_result, timestamp FROM (
  SELECT ..., ROW_NUMBER() OVER (PARTITION BY user_id, problem_id
                                 ORDER BY score DESC, timestamp ASC) as rn
  FROM submissions) as t
WHERE t.rn = 1
ORDER BY score DESC, timestamp ASC
```

and then keeps, in Python, the first fetched row of each `user_id`.
-/

/-- Membership of a row in the `PARTITION BY user_id, problem_id` partition
of another row. -/
def samePartition (a b : ScoreRecord) : Bool :=
  decide (a.user_id = b.user_id) && decide (a.problem_id = b.problem_id)

/-- The `rn = 1` condition: no row of the same partition is strictly ahead
under `ORDER BY score DESC, timestamp ASC`.  Being ahead under that order is
exactly `excludedBeats`.  Under the `UNIQUE (user_id, problem_id)` constraint
every partition is a singleton, so this keeps every row. -/
def rowNumberOne (rows : List ScoreRecord) (r : ScoreRecord) : Bool :=
  rows.all (fun x => !(samePartition x r && excludedBeats x r))

/-- The inner `WHERE t.rn = 1` query. -/
def innerQuery (rows : List ScoreRecord) : List ScoreRecord :=
  rows.filter (rowNumberOne rows)

/-- The outer `ORDER BY score DESC, timestamp ASC` as a relation. -/
def lbOrder (a b : ScoreRecord) : Prop :=
  b.score < a.score ∨ (a.score = b.score ∧ a.timestamp ≤ b.timestamp)

instance : DecidableRel lbOrder := fun a b => by
  unfold lbOrder; exact inferInstance

instance : IsTotal ScoreRecord lbOrder := by
  constructor
  intro a b
  unfold lbOrder
  rcases lt_trichotomy a.score b.score with h | h | h
  · exact Or.inr (Or.inl h)
  · rcases le_total a.timestamp b.timestamp with ht | ht
    · exact Or.inl (Or.inr ⟨h, ht⟩)
    · exact Or.inr (Or.inr ⟨h.symm, ht⟩)
  · exact Or.inl (Or.inl h)

instance : IsTrans ScoreRecord lbOrder := by
  constructor
  intro a b c hab hbc
  unfold lbOrder at *
  rcases hab with h₁ | ⟨h₁, h₁'⟩ <;> rcases hbc with h₂ | ⟨h₂, h₂'⟩
  · exact Or.inl (h₂.trans h₁)
  · exact Or.inl (h₂ ▸ h₁)
  · exact Or.inl (h₂.trans_eq h₁.symm)
  · exact Or.inr ⟨h₁.trans h₂, h₁'.trans h₂'⟩

/-- The `ORDER BY score DESC, timestamp ASC` sort of the fetched rows. -/
def sortRows (rows : List ScoreRecord) : List ScoreRecord :=
  List.insertionSort lbOrder rows

/-- A leaderboard entry: exactly the columns selected by the query —
`id, user_id, problem_id, score, replay_result, timestamp`.  The stored
`error_details` is not selected. -/
structure LeaderboardEntry where
  id : String
  user_id : String
  problem_id : String
  score : Int
  replay_result : String
  timestamp : Int
deriving DecidableEq, Repr

/-- Projection of a fetched row to the selected columns. -/
def toEntry (r : ScoreRecord) : LeaderboardEntry :=
  ⟨r.id, r.user_id, r.problem_id, r.score, r.replay_result, r.timestamp⟩

/-- The Python aggregation loop: keep the first fetched row of each
`user_id` (the `seen` set). -/
def dedupeByUser : List ScoreRecord → List String → List ScoreRecord
  | [], _ => []
  | r :: rest, seen =>
      if r.user_id ∈ seen then dedupeByUser rest seen
      else r :: dedupeByUser rest (r.user_id :: seen)

/-- The function `get_leaderboard_data` on the normal path: the SQL query
(`rn = 1` filter, then global sort) followed by the Python per-user
first-seen reduction. -/
def get_leaderboard_data (rows : List ScoreRecord) : List LeaderboardEntry :=
  (dedupeByUser (sortRows (innerQuery rows)) []).map toEntry

/-! Basic facts about the comparison predicate and the upsert. -/

theorem excludedBeats_irrefl (c : ScoreRecord) : excludedBeats c c = false := by
  simp [excludedBeats]

theorem excludedBeats_overwriteWith (r c : ScoreRecord) :
    excludedBeats c (overwriteWith r c) = false := by
  simp [excludedBeats, overwriteWith]

theorem excludedBeats_asymm {a b : ScoreRecord} (h : excludedBeats a b = true) :
    excludedBeats b a = false := by
  simp only [excludedBeats, Bool.or_eq_true, Bool.and_eq_true, decide_eq_true_eq,
    Bool.or_eq_false_iff, Bool.and_eq_false_iff, decide_eq_false_iff_not] at *
  omega

theorem excludedBeats_trans {a b c : ScoreRecord}
    (hab : excludedBeats a b = true) (hbc : excludedBeats b c = true) :
    excludedBeats a c = true := by
  simp only [excludedBeats, Bool.or_eq_true, Bool.and_eq_true, decide_eq_true_eq] at *
  omega

theorem recKey_overwriteWith (r c : ScoreRecord) :
    recKey (overwriteWith r c) = recKey r := rfl

theorem lookupRec_nil (k : String × String) : lookupRec [] k = none := rfl

theorem lookupRec_cons_pos {x : ScoreRecord} {rest : List ScoreRecord}
    {k : String × String} (hk : recKey x = k) :
    lookupRec (x :: rest) k = some x := by
  simp [lookupRec, hk]

theorem lookupRec_cons_neg {x : ScoreRecord} {rest : List ScoreRecord}
    {k : String × String} (hk : recKey x ≠ k) :
    lookupRec (x :: rest) k = lookupRec rest k := by
  simp [lookupRec, hk]

/-- The upsert on a table with no conflicting row appends the candidate. -/
theorem upsertRows_of_lookup_none {rows : List ScoreRecord} {c : ScoreRecord}
    (h : lookupRec rows (recKey c) = none) :
    upsertRows rows c = rows ++ [c] := by
  induction rows with
  | nil => rfl
  | cons r rest ih =>
      by_cases hk : recKey r = recKey c
      · rw [lookupRec_cons_pos hk] at h
        exact absurd h (by simp)
      · rw [lookupRec_cons_neg hk] at h
        simp only [upsertRows, if_neg hk, List.cons_append, List.cons.injEq, true_and]
        exact ih h

/-- The upsert on a table whose conflicting row is not beaten leaves the
table unchanged. -/
theorem upsertRows_of_not_beats {rows : List ScoreRecord} {c r : ScoreRecord}
    (h : lookupRec rows (recKey c) = some r) (hb : excludedBeats c r = false) :
    upsertRows rows c = rows := by
  induction rows with
  | nil => simp [lookupRec] at h
  | cons x rest ih =>
      by_cases hk : recKey x = recKey c
      · rw [lookupRec_cons_pos hk] at h
        obtain rfl : x = r := by simpa using h
        simp [upsertRows, if_pos hk, hb]
      · rw [lookupRec_cons_neg hk] at h
        simp only [upsertRows, if_neg hk, List.cons.injEq, true_and]
        exact ih h

/-- Looking up the candidate's key after the upsert: the conflicting row was
conditionally overwritten (or, absent a conflict, the candidate itself was
inserted). -/
theorem lookupRec_upsertRows_some {rows : List ScoreRecord} {c r : ScoreRecord}
    (h : lookupRec rows (recKey c) = some r) :
    lookupRec (upsertRows rows c) (recKey c)
      = some (if excludedBeats c r then overwriteWith r c else r) := by
  induction rows with
  | nil => simp [lookupRec] at h
  | cons x rest ih =>
      by_cases hk : recKey x = recKey c
      · rw [lookupRec_cons_pos hk] at h
        obtain rfl : x = r := by simpa using h
        by_cases hb : excludedBeats c x
        · rw [upsertRows, if_pos hk, if_pos hb]
          exact lookupRec_cons_pos (by rw [recKey_overwriteWith]; exact hk)
        · simp only [Bool.not_eq_true] at hb
          rw [upsertRows, if_pos hk, hb]
          simp only [Bool.false_eq_true, if_false]
          exact lookupRec_cons_pos hk
      · rw [lookupRec_cons_neg hk] at h
        rw [upsertRows, if_neg hk, lookupRec_cons_neg hk]
        exact ih h

theorem lookupRec_upsertRows_none {rows : List ScoreRecord} {c : ScoreRecord}
    (h : lookupRec rows (recKey c) = none) :
    lookupRec (upsertRows rows c) (recKey c) = some c := by
  rw [upsertRows_of_lookup_none h]
  induction rows with
  | nil => exact lookupRec_cons_pos rfl
  | cons x rest ih =>
      by_cases hk : recKey x = recKey c
      · rw [lookupRec_cons_pos hk] at h
        exact absurd h (by simp)
      · rw [lookupRec_cons_neg hk] at h
        rw [List.cons_append, lookupRec_cons_neg hk]
        exact ih h

/-- Overwriting transfers the candidate's score and timestamp, so the
overwritten row compares exactly like the candidate. -/
theorem excludedBeats_overwrite_left (r c x : ScoreRecord) :
    excludedBeats (overwriteWith r c) x = excludedBeats c x := rfl

theorem excludedBeats_overwrite_right (r c x : ScoreRecord) :
    excludedBeats x (overwriteWith r c) = excludedBeats x c := rfl

/-- The upsert leaves rows of every other key alone. -/
theorem lookupRec_upsertRows_ne {rows : List ScoreRecord} {c : ScoreRecord}
    {k : String × String} (h : k ≠ recKey c) :
    lookupRec (upsertRows rows c) k = lookupRec rows k := by
  induction rows with
  | nil =>
      show lookupRec [c] k = lookupRec [] k
      rw [lookupRec_cons_neg (fun hh => h hh.symm)]
  | cons x rest ih =>
      by_cases hk : recKey x = recKey c
      · by_cases hb : excludedBeats c x
        · rw [upsertRows, if_pos hk, if_pos hb]
          by_cases hx : recKey x = k
          · exact absurd (hx.symm.trans hk) h
          · rw [lookupRec_cons_neg (by rw [recKey_overwriteWith]; exact hx),
              lookupRec_cons_neg hx]
        · simp only [Bool.not_eq_true] at hb
          rw [upsertRows, if_pos hk, hb]
          simp only [Bool.false_eq_true, if_false]
      · rw [upsertRows, if_neg hk]
        by_cases hx : recKey x = k
        · rw [lookupRec_cons_pos hx, lookupRec_cons_pos hx]
        · rw [lookupRec_cons_neg hx, lookupRec_cons_neg hx]
          exact ih

/-! Concrete sample data used by witnesses and counterexamples. -/

def recA : ScoreRecord := ⟨"s1", "u1", "p1", 50, "fail", 2, "[]"⟩

def candB : ScoreRecord := ⟨"s2", "u1", "p1", 80, "pass", 3, "[]"⟩

def candWorse : ScoreRecord := ⟨"s3", "u1", "p1", 40, "fail", 5, "[]"⟩

/-- C1: `save_submission` inserts the candidate when no record exists for
`(user_id, problem_id)`; when a record exists it overwrites it if and only
if the candidate has a strictly higher score, or an equal score and a
strictly earlier timestamp (in which case the stored record really changes);
otherwise the table is left completely unchanged and the call reports no
error. -/
theorem save_submission_conditional_upsert (rows : List ScoreRecord)
    (c : ScoreRecord) :
    (lookupRec rows (recKey c) = none →
      (save_submission rows c).2 = rows ++ [c]) ∧
    (∀ r, lookupRec rows (recKey c) = some r → excludedBeats c r = true →
      lookupRec (save_submission rows c).2 (recKey c) = some (overwriteWith r c) ∧
        overwriteWith r c ≠ r) ∧
    (∀ r, lookupRec rows (recKey c) = some r → excludedBeats c r = false →
      (save_submission rows c).2 = rows) ∧
    (save_submission rows c).1.success = true ∧
    (save_submission rows c).1.error = none := by
  refine ⟨?_, ?_, ?_, rfl, rfl⟩
  · intro h
    exact upsertRows_of_lookup_none h
  · intro r h hb
    refine ⟨?_, ?_⟩
    · have hl := lookupRec_upsertRows_some h
      rw [if_pos hb] at hl
      exact hl
    · intro he
      rw [← he, excludedBeats_overwrite_right] at hb
      rw [excludedBeats_irrefl] at hb
      exact Bool.false_ne_true hb
  · intro r h hb
    exact upsertRows_of_not_beats h hb

theorem save_submission_conditional_upsert_witness :
    lookupRec (save_submission [recA] candB).2 (recKey candB)
        = some (overwriteWith recA candB) ∧
      overwriteWith recA candB ≠ recA :=
  (save_submission_conditional_upsert [recA] candB).2.1 recA (by decide) (by decide)

/-- C4 (counterexample): after a winning overwrite the stored row keeps its
old `id` — the `DO UPDATE SET` clause does not assign `id` — so the stored
`submission_id` does not identify the submission that produced the current
score. -/
theorem save_submission_id_not_updated_cex :
    lookupRec (save_submission [recA] candB).2 (recKey candB)
        = some ⟨"s1", "u1", "p1", 80, "pass", 3, "[]"⟩ ∧
      (⟨"s1", "u1", "p1", 80, "pass", 3, "[]"⟩ : ScoreRecord).id ≠ candB.id := by
  constructor
  · decide
  · decide

/-- C4 (amended): when the candidate wins, `save_submission` overwrites
`score`, `replay_result`, `timestamp` and `error_details` with the
candidate's values, but keeps the stored row's `id`, `user_id` and
`problem_id`: the stored `submission_id` remains the row's original durable
identity, not the winning candidate's. -/
theorem save_submission_overwrite_fields (rows : List ScoreRecord)
    (c r : ScoreRecord) (h : lookupRec rows (recKey c) = some r)
    (hb : excludedBeats c r = true) :
    lookupRec (save_submission rows c).2 (recKey c) = some (overwriteWith r c) ∧
    (overwriteWith r c).id = r.id ∧
    (overwriteWith r c).user_id = r.user_id ∧
    (overwriteWith r c).problem_id = r.problem_id ∧
    (overwriteWith r c).score = c.score ∧
    (overwriteWith r c).replay_result = c.replay_result ∧
    (overwriteWith r c).timestamp = c.timestamp ∧
    (overwriteWith r c).error_details = c.error_details := by
  refine ⟨?_, rfl, rfl, rfl, rfl, rfl, rfl, rfl⟩
  have hl := lookupRec_upsertRows_some h
  rw [if_pos hb] at hl
  exact hl

theorem save_submission_overwrite_fields_witness :
    lookupRec (save_submission [recA] candB).2 (recKey candB)
        = some (overwriteWith recA candB) ∧
    (overwriteWith recA candB).id = recA.id ∧
    (overwriteWith recA candB).user_id = recA.user_id ∧
    (overwriteWith recA candB).problem_id = recA.problem_id ∧
    (overwriteWith recA candB).score = candB.score ∧
    (overwriteWith recA candB).replay_result = candB.replay_result ∧
    (overwriteWith recA candB).timestamp = candB.timestamp ∧
    (overwriteWith recA candB).error_details = candB.error_details :=
  save_submission_overwrite_fields [recA] candB recA (by decide) (by decide)

/-- C5 (counterexample): `save_submission` returns the same dictionary
`{"success": True}` for a rejected candidate (store untouched) and for a
winning candidate (store changed): the successful result does not
distinguish Applied from Rejected. -/
theorem save_submission_result_indistinct_cex :
    (save_submission [recA] candWorse).1 = (save_submission [recA] candB).1 ∧
    (save_submission [recA] candWorse).2 = [recA] ∧
    (save_submission [recA] candB).2 ≠ [recA] := by
  refine ⟨rfl, by decide, by decide⟩

/-- C5 (amended): on the normal path `save_submission` always returns
`{"success": True}` — the same value whether the candidate was inserted,
overwrote the stored record, or was rejected; only the exception handler
(storage failure) produces the distinct error dictionary. -/
theorem save_submission_result_constant (rows rows' : List ScoreRecord)
    (c c' : ScoreRecord) :
    (save_submission rows c).1 = (save_submission rows' c').1 ∧
    (save_submission rows c).1.success = true ∧
    (save_submission rows c).1.error = none :=
  ⟨rfl, rfl, rfl⟩

/-- C8: applying the same candidate twice never changes the table after the
first application, and on the second call the upsert's conditional write
does not fire (the candidate is rejected). -/
theorem save_submission_idempotent (rows : List ScoreRecord)
    (c : ScoreRecord) :
    (save_submission (save_submission rows c).2 c).2 = (save_submission rows c).2 ∧
    updateFires (save_submission rows c).2 c = false := by
  show (upsertRows (upsertRows rows c) c) = upsertRows rows c ∧
    updateFires (upsertRows rows c) c = false
  cases h : lookupRec rows (recKey c) with
  | none =>
      have hl := lookupRec_upsertRows_none h
      refine ⟨upsertRows_of_not_beats hl (excludedBeats_irrefl c), ?_⟩
      rw [updateFires, hl]
      exact excludedBeats_irrefl c
  | some r =>
      by_cases hb : excludedBeats c r
      · have hl := lookupRec_upsertRows_some h
        rw [if_pos hb] at hl
        have hrej : excludedBeats c (overwriteWith r c) = false := by
          rw [excludedBeats_overwrite_right]
          exact excludedBeats_irrefl c
        refine ⟨upsertRows_of_not_beats hl hrej, ?_⟩
        rw [updateFires, hl]
        exact hrej
      · simp only [Bool.not_eq_true] at hb
        have hu : upsertRows rows c = rows := upsertRows_of_not_beats h hb
        refine ⟨by rw [hu, hu], ?_⟩
        rw [updateFires, hu, h]
        exact hb

/-- A conditional in-place update does not change the multiset of keys. -/
theorem map_recKey_upsertRows_some {rows : List ScoreRecord} {c r : ScoreRecord}
    (h : lookupRec rows (recKey c) = some r) :
    (upsertRows rows c).map recKey = rows.map recKey := by
  induction rows with
  | nil => simp [lookupRec] at h
  | cons x rest ih =>
      by_cases hk : recKey x = recKey c
      · by_cases hb : excludedBeats c x
        · rw [upsertRows, if_pos hk, if_pos hb]
          simp [recKey_overwriteWith]
        · simp only [Bool.not_eq_true] at hb
          rw [upsertRows, if_pos hk, hb]
          simp
      · rw [lookupRec_cons_neg hk] at h
        rw [upsertRows, if_neg hk, List.map_cons, List.map_cons, ih h]

theorem map_recKey_upsertRows_none {rows : List ScoreRecord} {c : ScoreRecord}
    (h : lookupRec rows (recKey c) = none) :
    (upsertRows rows c).map recKey = rows.map recKey ++ [recKey c] := by
  rw [upsertRows_of_lookup_none h, List.map_append, List.map_cons, List.map_nil]

/-- C6: starting from the empty table, every sequence of `save_submission`
calls keeps at most one row per `(user_id, problem_id)` pair, and a single
`save_submission` call preserves that invariant from any table satisfying
it. -/
theorem save_submission_keyUnique_invariant :
    (∀ rows c, keyUnique rows → keyUnique (save_submission rows c).2) ∧
    (∀ cs, keyUnique (applyAll [] cs)) := by
  have step : ∀ rows c, keyUnique rows → keyUnique (upsertRows rows c) := by
    intro rows c hu
    cases h : lookupRec rows (recKey c) with
    | some r =>
        unfold keyUnique
        rw [map_recKey_upsertRows_some h]
        exact hu
    | none =>
        unfold keyUnique
        rw [map_recKey_upsertRows_none h]
        rw [List.nodup_append]
        refine ⟨hu, List.nodup_singleton _, ?_⟩
        intro k hk hk'
        simp only [List.mem_singleton] at hk'
        subst hk'
        simp only [List.mem_map] at hk
        obtain ⟨x, hx, hxk⟩ := hk
        have := List.find?_eq_none.mp h x hx
        simp only [decide_eq_true_eq] at this
        exact this hxk
  refine ⟨fun rows c hu => step rows c hu, fun cs => ?_⟩
  have general : ∀ cs rows, keyUnique rows → keyUnique (applyAll rows cs) := by
    intro cs
    induction cs with
    | nil => exact fun rows hu => hu
    | cons c cs ih =>
        intro rows hu
        exact ih (upsertRows rows c) (step rows c hu)
  exact general cs [] (by simp [keyUnique])

theorem save_submission_keyUnique_invariant_witness :
    keyUnique (save_submission [recA] candB).2 :=
  save_submission_keyUnique_invariant.1 [recA] candB (by
    simp [keyUnique, recA])

/-- After one upsert, a key that was present still holds either the same
record or one that strictly beats it. -/
theorem lookupRec_upsertRows_mono {rows : List ScoreRecord} {c : ScoreRecord}
    {k : String × String} {r : ScoreRecord} (h : lookupRec rows k = some r) :
    ∃ r', lookupRec (upsertRows rows c) k = some r' ∧
      (r' = r ∨ excludedBeats r' r = true) := by
  by_cases hk : k = recKey c
  · subst hk
    have hl := lookupRec_upsertRows_some h
    by_cases hb : excludedBeats c r
    · rw [if_pos hb] at hl
      refine ⟨overwriteWith r c, hl, Or.inr ?_⟩
      rw [excludedBeats_overwrite_left]
      exact hb
    · simp only [Bool.not_eq_true] at hb
      rw [hb] at hl
      simp only [Bool.false_eq_true, if_false] at hl
      exact ⟨r, hl, Or.inl rfl⟩
  · rw [lookupRec_upsertRows_ne hk]
    exact ⟨r, h, Or.inl rfl⟩

/-- Across any further sequence of upserts, a stored record can only stay
identical or be replaced by a strictly better one. -/
theorem lookupRec_applyAll_mono (cs : List ScoreRecord) :
    ∀ rows (k : String × String) r, lookupRec rows k = some r →
      ∃ r', lookupRec (applyAll rows cs) k = some r' ∧
        (r' = r ∨ excludedBeats r' r = true) := by
  induction cs with
  | nil => exact fun rows k r h => ⟨r, h, Or.inl rfl⟩
  | cons c cs ih =>
      intro rows k r h
      obtain ⟨r₁, h₁, hc₁⟩ := lookupRec_upsertRows_mono (c := c) h
      obtain ⟨r', h', hc'⟩ := ih (upsertRows rows c) k r₁ h₁
      refine ⟨r', h', ?_⟩
      rcases hc₁ with rfl | hb₁
      · exact hc'
      · rcases hc' with rfl | hb'
        · exact Or.inr hb₁
        · exact Or.inr (excludedBeats_trans hb' hb₁)

/-- C7: a `save_submission` call whose candidate does not beat the stored
record for its pair (lower score, or equal score with a later-or-equal
timestamp) leaves the table completely unchanged; and across any sequence
of calls a stored record is only ever replaced by a strictly better one
under the I2 ordering. -/
theorem save_submission_no_regression :
    (∀ rows c r, lookupRec rows (recKey c) = some r →
      excludedBeats c r = false → (save_submission rows c).2 = rows) ∧
    (∀ rows cs (k : String × String) r, lookupRec rows k = some r →
      ∃ r', lookupRec (applyAll rows cs) k = some r' ∧
        (r' = r ∨ excludedBeats r' r = true)) := by
  refine ⟨?_, ?_⟩
  · intro rows c r h hb
    exact upsertRows_of_not_beats h hb
  · intro rows cs k r h
    exact lookupRec_applyAll_mono cs rows k r h

theorem save_submission_no_regression_witness :
    (save_submission [candB] candWorse).2 = [candB] :=
  save_submission_no_regression.1 [candB] candWorse candB (by decide) (by decide)

/-! C3: order-(in)dependence of a batch of candidates for one pair. -/

/-- Evolution of the single stored row for a pair under one candidate. -/
def keepBetter (stored c : ScoreRecord) : ScoreRecord :=
  if excludedBeats c stored then overwriteWith stored c else stored

/-- Equality of the four columns the `DO UPDATE SET` clause assigns. -/
def sameMutable (a b : ScoreRecord) : Prop :=
  a.score = b.score ∧ a.timestamp = b.timestamp ∧
    a.replay_result = b.replay_result ∧ a.error_details = b.error_details

instance (a b : ScoreRecord) : Decidable (sameMutable a b) := by
  unfold sameMutable; exact inferInstance

theorem sameMutable_refl (a : ScoreRecord) : sameMutable a a :=
  ⟨rfl, rfl, rfl, rfl⟩

theorem sameMutable_overwriteWith (r c : ScoreRecord) :
    sameMutable (overwriteWith r c) c :=
  ⟨rfl, rfl, rfl, rfl⟩

theorem sameMutable_trans {a b c : ScoreRecord}
    (h₁ : sameMutable a b) (h₂ : sameMutable b c) : sameMutable a c :=
  ⟨h₁.1.trans h₂.1, h₁.2.1.trans h₂.2.1, h₁.2.2.1.trans h₂.2.2.1,
    h₁.2.2.2.trans h₂.2.2.2⟩

theorem sameMutable_beats_left {a b : ScoreRecord} (h : sameMutable a b)
    (x : ScoreRecord) : excludedBeats a x = excludedBeats b x := by
  unfold excludedBeats
  rw [h.1, h.2.1]

theorem sameMutable_beats_right {a b : ScoreRecord} (h : sameMutable a b)
    (x : ScoreRecord) : excludedBeats x a = excludedBeats x b := by
  unfold excludedBeats
  rw [h.1, h.2.1]

theorem recKey_keepBetter (r c : ScoreRecord) :
    recKey (keepBetter r c) = recKey r := by
  unfold keepBetter
  by_cases hb : excludedBeats c r
  · rw [if_pos hb, recKey_overwriteWith]
  · rw [if_neg hb]

/-- When every candidate has the stored row's pair, the whole batch reduces
to folding `keepBetter` over the single stored row. -/
theorem applyAll_single_row (l : List ScoreRecord) :
    ∀ r : ScoreRecord, (∀ x ∈ l, recKey x = recKey r) →
      applyAll [r] l = [List.foldl keepBetter r l] := by
  induction l with
  | nil => intro r _; rfl
  | cons c l ih =>
      intro r hkey
      have hk : recKey r = recKey c := (hkey c (List.mem_cons_self c l)).symm
      have hstep : upsertRows [r] c = [keepBetter r c] := by
        unfold upsertRows keepBetter
        rw [if_pos hk]
      show applyAll (upsertRows [r] c) l = _
      rw [hstep]
      have : ∀ x ∈ l, recKey x = recKey (keepBetter r c) := by
        intro x hx
        rw [recKey_keepBetter]
        exact hkey x (List.mem_cons_of_mem c hx)
      exact ih (keepBetter r c) this

/-- The fold keeps the starting row's identity columns. -/
theorem foldl_keepBetter_identity (l : List ScoreRecord) :
    ∀ r : ScoreRecord,
      (List.foldl keepBetter r l).id = r.id ∧
      (List.foldl keepBetter r l).user_id = r.user_id ∧
      (List.foldl keepBetter r l).problem_id = r.problem_id := by
  induction l with
  | nil => exact fun r => ⟨rfl, rfl, rfl⟩
  | cons c l ih =>
      intro r
      have hstep : (keepBetter r c).id = r.id ∧
          (keepBetter r c).user_id = r.user_id ∧
          (keepBetter r c).problem_id = r.problem_id := by
        unfold keepBetter
        by_cases hb : excludedBeats c r
        · rw [if_pos hb]; exact ⟨rfl, rfl, rfl⟩
        · rw [if_neg hb]; exact ⟨rfl, rfl, rfl⟩
      obtain ⟨h₁, h₂, h₃⟩ := ih (keepBetter r c)
      exact ⟨h₁.trans hstep.1, h₂.trans hstep.2.1, h₃.trans hstep.2.2⟩

/-- The fold converges to the mutable content of a candidate `m` that beats
every other candidate (up to duplicates of `m`'s own mutable content). -/
theorem foldl_keepBetter_max (m : ScoreRecord) (l : List ScoreRecord) :
    ∀ r : ScoreRecord,
      (∀ x ∈ l, sameMutable x m ∨ excludedBeats m x = true) →
      (sameMutable r m ∨ m ∈ l) →
      (sameMutable r m ∨ excludedBeats m r = true) →
      sameMutable (List.foldl keepBetter r l) m := by
  induction l with
  | nil =>
      intro r _ hin hcmp
      rcases hin with h | h
      · exact h
      · exact absurd h (List.not_mem_nil m)
  | cons x l ih =>
      intro r hall hin hcmp
      rw [List.foldl_cons]
      rcases hall x (List.mem_cons_self x l) with hxm | hbeat
      · -- the head has exactly m's mutable content
        by_cases hb : excludedBeats x r
        · have hkb : sameMutable (keepBetter r x) x := by
            unfold keepBetter
            rw [if_pos hb]
            exact sameMutable_overwriteWith r x
          have hsm : sameMutable (keepBetter r x) m := sameMutable_trans hkb hxm
          exact ih (keepBetter r x)
            (fun y hy => hall y (List.mem_cons_of_mem x hy))
            (Or.inl hsm) (Or.inl hsm)
        · -- the head does not beat the current row, so the current row
          -- already has m's mutable content
          have hrm : sameMutable r m := by
            rcases hcmp with h | h
            · exact h
            · exact absurd ((sameMutable_beats_left hxm r).trans h) hb
          have hkb : keepBetter r x = r := by
            unfold keepBetter
            rw [if_neg hb]
          rw [hkb]
          exact ih r (fun y hy => hall y (List.mem_cons_of_mem x hy))
            (Or.inl hrm) (Or.inl hrm)
      · -- the head is strictly beaten by m
        have hxm : x ≠ m := by
          intro he
          rw [he, excludedBeats_irrefl] at hbeat
          exact Bool.false_ne_true hbeat
        have hml : m ∈ l ∨ sameMutable r m := by
          rcases hin with h | h
          · exact Or.inr h
          · rcases List.mem_cons.mp h with h' | h'
            · exact absurd h'.symm hxm
            · exact Or.inl h'
        by_cases hb : excludedBeats x r
        · have hkb : sameMutable (keepBetter r x) x := by
            unfold keepBetter
            rw [if_pos hb]
            exact sameMutable_overwriteWith r x
          have hcmp' : excludedBeats m (keepBetter r x) = true := by
            rw [sameMutable_beats_right hkb]
            exact hbeat
          have hin' : sameMutable (keepBetter r x) m ∨ m ∈ l := by
            rcases hml with h | h
            · exact Or.inr h
            · exfalso
              rw [sameMutable_beats_right h x, excludedBeats_asymm hbeat] at hb
              exact Bool.false_ne_true hb
          exact ih (keepBetter r x)
            (fun y hy => hall y (List.mem_cons_of_mem x hy))
            hin' (Or.inr hcmp')
        · have hkb : keepBetter r x = r := by
            unfold keepBetter
            rw [if_neg hb]
          rw [hkb]
          have hin' : sameMutable r m ∨ m ∈ l := by
            rcases hml with h | h
            · exact Or.inr h
            · exact Or.inl h
          exact ih r (fun y hy => hall y (List.mem_cons_of_mem x hy))
            hin' hcmp

/-- C3 (counterexample): two candidates for the same pair, applied in the
two possible orders, leave different final stored records — the surviving
row keeps the `id` of the first-applied candidate — and in one order the
final record is not the maximal candidate itself. -/
theorem applyAll_order_dependent_cex :
    applyAll [] [recA, candB] ≠ applyAll [] [candB, recA] ∧
    applyAll [] [recA, candB] ≠ [candB] := by
  refine ⟨by decide, by decide⟩

/-- C3 (amended): for candidates all sharing one `(user_id, problem_id)`
pair, if a candidate `m` beats every candidate of different mutable content
(i.e. the I2-maximum is unique up to the mutable columns), then applying the
batch in any order from the empty table leaves exactly one stored record,
whose `score`, `replay_result`, `timestamp` and `error_details` are `m`'s;
its `id`, `user_id` and `problem_id` are those of the first candidate
applied, so the stored `id` does depend on the order. -/
theorem applyAll_single_pair_max (c : ScoreRecord) (l : List ScoreRecord)
    (m : ScoreRecord)
    (hkey : ∀ x ∈ c :: l, recKey x = recKey c)
    (hm : m ∈ c :: l)
    (hmax : ∀ x ∈ c :: l, sameMutable x m ∨ excludedBeats m x = true) :
    ∃ r, applyAll [] (c :: l) = [r] ∧
      r.score = m.score ∧ r.timestamp = m.timestamp ∧
      r.replay_result = m.replay_result ∧
      r.error_details = m.error_details ∧
      r.id = c.id ∧ r.user_id = c.user_id ∧ r.problem_id = c.problem_id := by
  have h1 : applyAll [] (c :: l) = applyAll [c] l := rfl
  have hkeyl : ∀ x ∈ l, recKey x = recKey c := fun x hx =>
    hkey x (List.mem_cons_of_mem c hx)
  have h2 := applyAll_single_row l c hkeyl
  refine ⟨List.foldl keepBetter c l, by rw [h1, h2], ?_⟩
  have hsm : sameMutable (List.foldl keepBetter c l) m := by
    apply foldl_keepBetter_max m l c
    · exact fun y hy => hmax y (List.mem_cons_of_mem c hy)
    · rcases List.mem_cons.mp hm with h | h
      · exact Or.inl (by rw [h]; exact sameMutable_refl c)
      · exact Or.inr h
    · exact hmax c (List.mem_cons_self c l)
  obtain ⟨hid, huser, hprob⟩ := foldl_keepBetter_identity l c
  exact ⟨hsm.1, hsm.2.1, hsm.2.2.1, hsm.2.2.2, hid, huser, hprob⟩

theorem applyAll_single_pair_max_witness :
    ∃ r, applyAll [] [recA, candB] = [r] ∧
      r.score = candB.score ∧ r.timestamp = candB.timestamp ∧
      r.replay_result = candB.replay_result ∧
      r.error_details = candB.error_details ∧
      r.id = recA.id ∧ r.user_id = recA.user_id ∧
      r.problem_id = recA.problem_id :=
  applyAll_single_pair_max recA [candB] candB (by decide) (by decide) (by decide)

/-! Leaderboard lemmas. -/

theorem samePartition_iff (x r : ScoreRecord) :
    samePartition x r = true ↔ recKey x = recKey r := by
  simp [samePartition, recKey, Prod.ext_iff]

/-- Under the table's `UNIQUE (user_id, problem_id)` constraint, every
partition of the inner query is a singleton, so the `rn = 1` filter keeps
every row. -/
theorem innerQuery_of_keyUnique {rows : List ScoreRecord}
    (hu : keyUnique rows) : innerQuery rows = rows := by
  apply List.filter_eq_self.mpr
  intro r hr
  simp only [rowNumberOne, List.all_eq_true, Bool.not_eq_eq_eq_not,
    Bool.not_true, Bool.and_eq_false_iff]
  intro x hx
  by_cases hp : samePartition x r = true
  · have hk : recKey x = recKey r := (samePartition_iff x r).mp hp
    have hxr : x = r := List.inj_on_of_nodup_map hu hx hr hk
    right
    rw [hxr]
    exact excludedBeats_irrefl r
  · left
    exact Bool.not_eq_true _ ▸ hp

theorem lbOrder_refl (a : ScoreRecord) : lbOrder a a :=
  Or.inr ⟨rfl, le_refl _⟩

/-- A row that is at or before another row in the leaderboard order is not
beaten by it. -/
theorem lbOrder_not_beats {a b : ScoreRecord} (h : lbOrder a b) :
    excludedBeats b a = false := by
  unfold lbOrder at h
  simp only [excludedBeats, Bool.or_eq_false_iff, Bool.and_eq_false_iff,
    decide_eq_false_iff_not]
  omega

theorem dedupeByUser_sublist :
    ∀ (l : List ScoreRecord) (seen : List String),
      List.Sublist (dedupeByUser l seen) l := by
  intro l
  induction l with
  | nil => intro seen; simp [dedupeByUser]
  | cons r rest ih =>
      intro seen
      unfold dedupeByUser
      by_cases hs : r.user_id ∈ seen
      · rw [if_pos hs]
        exact (ih seen).cons r
      · rw [if_neg hs]
        exact (ih (r.user_id :: seen)).cons₂ r

/-- Every element kept by the Python loop was not yet seen, is a row of the
fetched list, and (when the list is sorted) is at or before every row of the
same user. -/
theorem dedupeByUser_spec :
    ∀ (l : List ScoreRecord) (seen : List String),
      l.Sorted lbOrder →
      ∀ e ∈ dedupeByUser l seen,
        e ∈ l ∧ e.user_id ∉ seen ∧
          ∀ x ∈ l, x.user_id = e.user_id → lbOrder e x := by
  intro l
  induction l with
  | nil => intro seen _ e he; simp [dedupeByUser] at he
  | cons r rest ih =>
      intro seen hsort e he
      obtain ⟨hr, hrest⟩ := List.sorted_cons.mp hsort
      unfold dedupeByUser at he
      by_cases hs : r.user_id ∈ seen
      · rw [if_pos hs] at he
        obtain ⟨hmem, hseen, hmin⟩ := ih seen hrest e he
        refine ⟨List.mem_cons_of_mem r hmem, hseen, ?_⟩
        intro x hx hxu
        rcases List.mem_cons.mp hx with rfl | hx'
        · exact absurd (hxu ▸ hs) hseen
        · exact hmin x hx' hxu
      · rw [if_neg hs] at he
        rcases List.mem_cons.mp he with rfl | he'
        · refine ⟨List.mem_cons_self e rest, hs, ?_⟩
          intro x hx _
          rcases List.mem_cons.mp hx with rfl | hx'
          · exact lbOrder_refl x
          · exact hr x hx'
        · obtain ⟨hmem, hseen, hmin⟩ := ih (r.user_id :: seen) hrest e he'
          have hne : e.user_id ≠ r.user_id := fun h =>
            hseen (h ▸ List.mem_cons_self r.user_id seen)
          refine ⟨List.mem_cons_of_mem r hmem,
            fun h => hseen (List.mem_cons_of_mem _ h), ?_⟩
          intro x hx hxu
          rcases List.mem_cons.mp hx with rfl | hx'
          · exact absurd hxu hne.symm
          · exact hmin x hx' hxu

/-- Every user of the fetched list survives the Python loop (or was already
seen). -/
theorem dedupeByUser_covers :
    ∀ (l : List ScoreRecord) (seen : List String) (x : ScoreRecord),
      x ∈ l → x.user_id ∈ seen ∨
        ∃ e ∈ dedupeByUser l seen, e.user_id = x.user_id := by
  intro l
  induction l with
  | nil => intro seen x hx; simp at hx
  | cons r rest ih =>
      intro seen x hx
      unfold dedupeByUser
      by_cases hs : r.user_id ∈ seen
      · rw [if_pos hs]
        rcases List.mem_cons.mp hx with rfl | hx'
        · exact Or.inl hs
        · exact ih seen x hx'
      · rw [if_neg hs]
        rcases List.mem_cons.mp hx with rfl | hx'
        · exact Or.inr ⟨x, List.mem_cons_self x _, rfl⟩
        · rcases ih (r.user_id :: seen) x hx' with h | ⟨e, he, heu⟩
          · rcases List.mem_cons.mp h with h' | h'
            · exact Or.inr ⟨r, List.mem_cons_self r _, h'.symm⟩
            · exact Or.inl h'
          · exact Or.inr ⟨e, List.mem_cons_of_mem r he, heu⟩

/-- The Python loop emits at most one row per user. -/
theorem dedupeByUser_nodup :
    ∀ (l : List ScoreRecord) (seen : List String),
      ((dedupeByUser l seen).map ScoreRecord.user_id).Nodup ∧
        ∀ e ∈ dedupeByUser l seen, e.user_id ∉ seen := by
  intro l
  induction l with
  | nil => intro seen; simp [dedupeByUser]
  | cons r rest ih =>
      intro seen
      unfold dedupeByUser
      by_cases hs : r.user_id ∈ seen
      · rw [if_pos hs]
        exact ih seen
      · rw [if_neg hs]
        obtain ⟨hnd, hsn⟩ := ih (r.user_id :: seen)
        refine ⟨?_, ?_⟩
        · rw [List.map_cons, List.nodup_cons]
          refine ⟨?_, hnd⟩
          intro hmem
          simp only [List.mem_map] at hmem
          obtain ⟨e, he, heu⟩ := hmem
          exact hsn e he (heu ▸ List.mem_cons_self r.user_id seen)
        · intro e he
          rcases List.mem_cons.mp he with rfl | he'
          · exact hs
          · exact fun h => hsn e he' (List.mem_cons_of_mem _ h)

/-- The leaderboard ordering `(score desc, timestamp asc)` on output
entries. -/
def entryOrder (a b : LeaderboardEntry) : Prop :=
  b.score < a.score ∨ (a.score = b.score ∧ a.timestamp ≤ b.timestamp)

def recC : ScoreRecord := ⟨"s4", "u2", "p1", 70, "pass", 1, "[]"⟩

/-- C2: on a table satisfying the `UNIQUE (user_id, problem_id)` constraint,
`get_leaderboard_data` returns exactly one entry per user having a stored
record; each user's entry is a stored record of that user beaten by none of
that user's records (highest score, ties broken by earliest timestamp —
their single best record, not a sum across problems); and the entries are
sorted by score descending, then timestamp ascending. -/
theorem get_leaderboard_data_spec (rows : List ScoreRecord)
    (hu : keyUnique rows) :
    (∀ u : String, (∃ r ∈ rows, r.user_id = u) ↔
      ∃ e ∈ get_leaderboard_data rows, e.user_id = u) ∧
    ((get_leaderboard_data rows).map LeaderboardEntry.user_id).Nodup ∧
    (∀ e ∈ get_leaderboard_data rows, ∃ r ∈ rows,
      toEntry r = e ∧ r.user_id = e.user_id ∧
      ∀ r' ∈ rows, r'.user_id = r.user_id → excludedBeats r' r = false) ∧
    (get_leaderboard_data rows).Sorted entryOrder := by
  have hinner : innerQuery rows = rows := innerQuery_of_keyUnique hu
  have hperm : (sortRows (innerQuery rows)).Perm rows := by
    rw [hinner, sortRows]
    exact List.perm_insertionSort lbOrder rows
  have hsort : (sortRows (innerQuery rows)).Sorted lbOrder :=
    List.sorted_insertionSort lbOrder (innerQuery rows)
  refine ⟨?_, ?_, ?_, ?_⟩
  · intro u
    constructor
    · rintro ⟨r, hr, rfl⟩
      have hrs : r ∈ sortRows (innerQuery rows) := hperm.mem_iff.mpr hr
      rcases dedupeByUser_covers (sortRows (innerQuery rows)) [] r hrs with
        h | ⟨e, he, heu⟩
      · exact absurd h (List.not_mem_nil _)
      · exact ⟨toEntry e, List.mem_map_of_mem toEntry he, heu⟩
    · rintro ⟨e, he, rfl⟩
      obtain ⟨x, hx, rfl⟩ := List.mem_map.mp he
      have hxs : x ∈ sortRows (innerQuery rows) :=
        (dedupeByUser_sublist _ []).subset hx
      exact ⟨x, hperm.mem_iff.mp hxs, rfl⟩
  · have hmap : (get_leaderboard_data rows).map LeaderboardEntry.user_id
        = (dedupeByUser (sortRows (innerQuery rows)) []).map
            ScoreRecord.user_id := by
      unfold get_leaderboard_data
      rw [List.map_map]
      exact List.map_congr_left (fun a _ => rfl)
    rw [hmap]
    exact (dedupeByUser_nodup (sortRows (innerQuery rows)) []).1
  · intro e he
    obtain ⟨x, hx, rfl⟩ := List.mem_map.mp he
    obtain ⟨hxs, _, hmin⟩ :=
      dedupeByUser_spec (sortRows (innerQuery rows)) [] hsort x hx
    refine ⟨x, hperm.mem_iff.mp hxs, rfl, rfl, ?_⟩
    intro r' hr' hr'u
    exact lbOrder_not_beats (hmin r' (hperm.mem_iff.mpr hr') hr'u)
  · have hpw : (dedupeByUser (sortRows (innerQuery rows)) []).Pairwise lbOrder :=
      List.Pairwise.sublist (dedupeByUser_sublist _ []) hsort
    exact List.pairwise_map.mpr (hpw.imp (fun h => h))

theorem get_leaderboard_data_spec_witness :
    ((get_leaderboard_data [recA, recC]).map LeaderboardEntry.user_id).Nodup :=
  (get_leaderboard_data_spec [recA, recC] (by decide)).2.1

/-- C9: the leaderboard never contains two entries with the same user
identity, whatever the table contents. -/
theorem get_leaderboard_data_user_nodup (rows : List ScoreRecord) :
    ((get_leaderboard_data rows).map LeaderboardEntry.user_id).Nodup := by
  have hmap : (get_leaderboard_data rows).map LeaderboardEntry.user_id
      = (dedupeByUser (sortRows (innerQuery rows)) []).map
          ScoreRecord.user_id := by
    unfold get_leaderboard_data
    rw [List.map_map]
    exact List.map_congr_left (fun a _ => rfl)
  rw [hmap]
  exact (dedupeByUser_nodup (sortRows (innerQuery rows)) []).1

/-- C10: every leaderboard entry is the projection of a stored row to
exactly the selected columns `id, user_id, problem_id, score,
replay_result, timestamp`, and that projection ignores the stored
`error_details`. -/
theorem get_leaderboard_data_fields (rows : List ScoreRecord) :
    (∀ e ∈ get_leaderboard_data rows, ∃ r ∈ rows, e = toEntry r) ∧
    (∀ (r : ScoreRecord) (s : String),
      toEntry { r with error_details := s } = toEntry r) := by
  constructor
  · intro e he
    obtain ⟨x, hx, rfl⟩ := List.mem_map.mp he
    have hxs : x ∈ sortRows (innerQuery rows) :=
      (dedupeByUser_sublist _ []).subset hx
    have hxi : x ∈ innerQuery rows :=
      (List.perm_insertionSort lbOrder (innerQuery rows)).mem_iff.mp hxs
    exact ⟨x, (List.mem_filter.mp hxi).1, rfl⟩
  · intro r s
    rfl

theorem get_leaderboard_data_fields_witness :
    ∃ r ∈ [recA, recC], toEntry recC = toEntry r :=
  (get_leaderboard_data_fields [recA, recC]).1 (toEntry recC) (by decide)
